import Mathlib

/-!
Shallow embedding of the `opt.ConjGrad` multidimensional minimizer
(Fletcher-Reeves / Polak-Ribiere nonlinear conjugate gradient) from
`src/ode/highlevel.go`, package `opt`.

Modelling choices:
* `float64` is modelled by `ℚ`; `math.Abs` is `|·|`, `utl.Max` is `max`.
* `la.Vector` is `List ℚ`; `la.VecDot` and `la.VecAdd` are translated below.
* External collaborators (the Wolfe line search `o.lines.Wolfe`, the Brent
  line solver `o.lineb.MinUpdateX`, the 5-point central-difference
  primitive `num.DerivCen5`, and the Euclidean norm `la.Vector.Norm`) are
  not part of the reviewed source; they are oracle fields of an `Env`
  record.  A line-search oracle returns the step length, the minimum
  value, the updated point, and its function/Jacobian evaluation counts;
  `DerivCen5` returns its estimate and the number of probe evaluations.
* `chk.Panic` (non-convergence, bad Jacobian) becomes explicit result
  constructors; a normal `return` becomes `.ok`.
* The Go `for o.NumIter = 0; o.NumIter < o.MaxIt; o.NumIter++` loop is
  modelled by fuel `o.MaxIt.toNat` with `NumIter` threaded in the state.
* The `History` recorder is purely observational (never read by the
  algorithm) and is omitted.
-/

namespace Opt

/-- Vectors (`la.Vector`). -/
abbrev Vec := List ℚ

/-- Dot product `la.VecDot`. -/
def VecDot (a b : Vec) : ℚ := (List.zipWith (· * ·) a b).sum

/-- Componentwise negation (`u[j] = -u[j]` loops). -/
def vecNeg (a : Vec) : Vec := a.map (fun t => -t)

/-- Componentwise sum, `la.VecAdd(tmp, 1, u, 1, g)`. -/
def vecAdd (a b : Vec) : Vec := List.zipWith (· + ·) a b

/-- Componentwise difference (used to state the Polak-Ribiere formula). -/
def vecSub (a b : Vec) : Vec := List.zipWith (· - ·) a b

/-- External collaborators of the optimizer, supplied as oracles. -/
structure Env where
  ffcn : Vec → ℚ
  jfcn : Vec → Vec
  wolfe : Vec → Vec → Bool → ℚ → ℚ × ℚ × Vec × ℕ × ℕ
  brent : Vec → Vec → ℚ × ℚ × Vec × ℕ × ℕ
  derivCen5 : ℚ → ℚ → (ℚ → ℚ) → ℚ × ℕ
  norm : Vec → ℚ

/-- The `ConjGrad` struct: configuration and statistics fields. -/
structure ConjGrad where
  MaxIt : ℤ
  Ftol : ℚ
  Gtol : ℚ
  UseBrent : Bool
  UseFRmethod : Bool
  CheckJfcn : Bool
  NumFeval : ℤ
  NumJeval : ℤ
  NumIter : ℤ
  size : ℕ
  tiny : ℚ
  deriving DecidableEq

/-- `NewConjGrad` defaults (counters start at Go zero values). -/
def NewConjGrad (size : ℕ) : ConjGrad :=
  { MaxIt := 200
    Ftol := 1 / 10 ^ 8
    Gtol := 1 / 10 ^ 8
    UseBrent := false
    UseFRmethod := false
    CheckJfcn := false
    NumFeval := 0
    NumJeval := 0
    NumIter := 0
    size := size
    tiny := 1 / 10 ^ 18 }

/-- Mutable state threaded through the iterations of `Min`. -/
structure St where
  x : Vec
  fx : ℚ
  fmin : ℚ
  fold : ℚ
  u : Vec
  g : Vec
  h : Vec
  NumFeval : ℤ
  NumJeval : ℤ
  NumIter : ℤ
  deriving DecidableEq

/-- Outcome of `checkJacobian`: normal return carrying the number of probe
evaluations, or `chk.Panic` carrying the offending deviation. -/
inductive JacCheck where
  | ok (nfe : ℕ)
  | panicJac (diff : ℚ)
  deriving DecidableEq

/-- The finite-difference estimate for coordinate `k` in `checkJacobian`:
`num.DerivCen5(x[k], 1e-3, probe)` where the probe copies `x` into scratch,
overwrites index `k`, and evaluates the objective.  Returns the estimate
and the number of objective evaluations the primitive performed. -/
def checkJacobianEst (env : Env) (x : Vec) (k : ℕ) : ℚ × ℕ :=
  env.derivCen5 (x.getD k 0) (1 / 10 ^ 3) (fun xk => env.ffcn (x.set k xk))

/-- Loop body of `checkJacobian` over the remaining coordinate indices,
accumulating probe evaluation counts. -/
def cjGo (env : Env) (x u : Vec) (acc : ℕ) : List ℕ → JacCheck
  | [] => .ok acc
  | k :: ks =>
    if |u.getD k 0 - (checkJacobianEst env x k).1| > 1 / 10 ^ 12 then
      .panicJac |u.getD k 0 - (checkJacobianEst env x k).1|
    else cjGo env x u (acc + (checkJacobianEst env x k).2) ks

/-- `ConjGrad.checkJacobian`: verify every coordinate `k < size` of the
supplied gradient `u` at point `x` against a central-difference estimate. -/
def checkJacobian (env : Env) (size : ℕ) (x u : Vec) : JacCheck :=
  cjGo env x u 0 (List.range size)

/-- The `linesearch` closure chosen at the top of `Min`: the Wolfe search,
or the Brent wrapper that ignores the two dummy arguments. -/
def lineSearchCall (env : Env) (o : ConjGrad) (x u : Vec) (flag : Bool)
    (fold : ℚ) : ℚ × ℚ × Vec × ℕ × ℕ :=
  if o.UseBrent then env.brent x u else env.wolfe x u flag fold

/-- State after the line minimization: `x` advanced to the minimizer,
`fmin` recorded, the line solver's evaluation counts folded into the
cumulative counters, and `fold` updated to the pre-search `fx`. -/
def afterLS (env : Env) (o : ConjGrad) (s : St) : St :=
  match lineSearchCall env o s.x s.u true s.fold with
  | (_, fmin, xNew, nfe, nje) =>
    { s with
      x := xNew
      fmin := fmin
      NumFeval := s.NumFeval + (nfe : ℤ)
      NumJeval := s.NumJeval + (nje : ℤ)
      fold := s.fx }

/-- State after `fx = fmin` and the per-iteration gradient re-evaluation
`o.jfcn(o.u, x)` with `o.NumJeval++`. -/
def afterGrad (env : Env) (s : St) : St :=
  { s with fx := s.fmin, u := env.jfcn s.x, NumJeval := s.NumJeval + 1 }

/-- Scaled-gradient convergence statistic:
`test = max_j |u[j]| * max(|x[j]|,1) / max(fx,1)`, as the Go loop computes
it (note `coef = utl.Max(fx, 1.0)` uses `fx`, not `|fx|`). -/
def gradTest (size : ℕ) (x u : Vec) (fx : ℚ) : ℚ :=
  (List.range size).foldl
    (fun test j =>
      let temp := |u.getD j 0| * max |x.getD j 0| 1 / max fx 1
      if temp > test then temp else test) 0

/-- Numerator of the CG scaling factor: Fletcher-Reeves `u ⋅ u`, or
Polak-Ribiere `max((u + g) ⋅ u, 0)` where at this point `u` holds the new
gradient and `g` the negated old gradient. -/
def gammaNume (useFR : Bool) (u g : Vec) : ℚ :=
  if useFR then VecDot u u else max (VecDot (vecAdd u g) u) 0

/-- Direction update `γ = nume/deno; g = -u; u = g + γ*h; h = u`
(at this point `s.u` holds the re-evaluated gradient). -/
def updateDirs (o : ConjGrad) (deno : ℚ) (s : St) : St :=
  { s with
    g := vecNeg s.u
    u := List.zipWith
      (fun gj hj => gj + (gammaNume o.UseFRmethod s.u s.g / deno) * hj)
      (vecNeg s.u) s.h
    h := List.zipWith
      (fun gj hj => gj + (gammaNume o.UseFRmethod s.u s.g / deno) * hj)
      (vecNeg s.u) s.h }

/-- Outcome of one iteration of the `Min` loop body, tagged by which of
the program points ended it. -/
inductive StepRes where
  | exitGrad0 (s : St)
  | exitFtol (s : St)
  | exitGtol (s : St)
  | panicJac (diff : ℚ) (s : St)
  | next (s : St)
  deriving DecidableEq

/-- Tail of the loop body after the Jacobian check: the zero-gradient
convergence test (exit point 3), then the direction update. -/
def stepAfterJac (o : ConjGrad) (deno : ℚ) (s3 : St) : StepRes :=
  if gradTest o.size s3.x s3.u s3.fx < o.Gtol then .exitGtol s3
  else .next (updateDirs o deno s3)

/-- Loop body from the gradient re-evaluation on: optional Jacobian
verification (folding its probe evaluations into `NumFeval`), then the
tail. -/
def stepJac (env : Env) (o : ConjGrad) (deno : ℚ) (s2 : St) : StepRes :=
  match (if o.CheckJfcn then checkJacobian env o.size s2.x s2.u else .ok 0) with
  | .panicJac d => .panicJac d s2
  | .ok nfe => stepAfterJac o deno { s2 with NumFeval := s2.NumFeval + (nfe : ℤ) }

/-- Loop body after the line minimization: the function-value convergence
test (exit point 2), then the gradient re-evaluation and the rest. -/
def stepLS (env : Env) (o : ConjGrad) (deno : ℚ) (s1 : St) : StepRes :=
  if 2 * |s1.fmin - s1.fx| ≤ o.Ftol * (|s1.fmin| + |s1.fx| + o.tiny) then
    .exitFtol s1
  else stepJac env o deno (afterGrad env s1)

/-- One iteration of the `Min` loop body, translated statement by
statement from the Go source: the degenerate-gradient test (exit point 1)
on `deno = dot(g, g)`, then the line minimization and the rest. -/
def step (env : Env) (o : ConjGrad) (s : St) : StepRes :=
  if |VecDot s.g s.g| < o.tiny then .exitGrad0 s
  else stepLS env o (VecDot s.g s.g) (afterLS env o s)

/-- Result of `Min`: a normal return carrying `fmin` and the final state,
or one of the two `chk.Panic` aborts. -/
inductive MinRes where
  | ok (fmin : ℚ) (s : St)
  | panicJac (diff : ℚ) (s : St)
  | panicConverge (s : St)
  deriving DecidableEq

/-- The iteration loop of `Min`, with fuel `MaxIt.toNat`; a `return`
inside the body yields `.ok`, exhausting the fuel yields the
`fail to converge` panic with `NumIter` equal to the iterations run. -/
def loop (env : Env) (o : ConjGrad) : ℕ → St → MinRes
  | 0, s => .panicConverge s
  | n + 1, s =>
    match step env o s with
    | .exitGrad0 s1 => .ok s1.fmin s1
    | .exitFtol s1 => .ok s1.fmin s1
    | .exitGtol s1 => .ok s1.fmin s1
    | .panicJac d s1 => .panicJac d s1
    | .next s1 => loop env o n { s1 with NumIter := s1.NumIter + 1 }

/-- Initialization block of `Min`: `fx = ffcn(x)`, `u = -jfcn(x)`,
`g = h = u`, counters reset to 1, `fmin = fx`, and the synthetic
`fold = fx + norm(u)/2` seed. -/
def initSt (env : Env) (x : Vec) : St :=
  { x := x
    fx := env.ffcn x
    fmin := env.ffcn x
    fold := env.ffcn x + env.norm (vecNeg (env.jfcn x)) / 2
    u := vecNeg (env.jfcn x)
    g := vecNeg (env.jfcn x)
    h := vecNeg (env.jfcn x)
    NumFeval := 1
    NumJeval := 1
    NumIter := 0 }

/-- `ConjGrad.Min`: initialize, then iterate. -/
def Min (env : Env) (o : ConjGrad) (x : Vec) : MinRes :=
  loop env o o.MaxIt.toNat (initSt env x)

/-- State carried by a step outcome. -/
def StepRes.st : StepRes → St
  | .exitGrad0 s => s
  | .exitFtol s => s
  | .exitGtol s => s
  | .panicJac _ s => s
  | .next s => s

/-- State carried by a `Min` outcome. -/
def MinRes.st : MinRes → St
  | .ok _ s => s
  | .panicJac _ s => s
  | .panicConverge s => s

/-- The conjugate-gradient scaling factor exactly as the specification
states it, in terms of the true old and new gradients: Fletcher-Reeves
`(gNew⋅gNew)/(gOld⋅gOld)`, Polak-Ribiere
`max((gOld − gNew)⋅(−gNew), 0)/(gOld⋅gOld)`.  To be compared with the
quotient `gammaNume … / deno` the code computes. -/
def gammaSpec (useFR : Bool) (gOld gNew : Vec) : ℚ :=
  (if useFR then VecDot gNew gNew
   else max 0 (VecDot (vecSub gOld gNew) (vecNeg gNew))) / VecDot gOld gOld

/-- The scaled-gradient statistic computed in iteration 0 of `Min` on
input `x` (the value `test` is compared against `Gtol` there). -/
def iter0Test (env : Env) (o : ConjGrad) (x : Vec) : ℚ :=
  gradTest o.size (afterGrad env (afterLS env o (initSt env x))).x
    (afterGrad env (afterLS env o (initSt env x))).u
    (afterGrad env (afterLS env o (initSt env x))).fx

/-- `allContinueB env o n s` holds when `n` successive iterations of the
loop body starting from `s` all fall through to the direction update
(no exit condition fires). -/
def allContinueB (env : Env) (o : ConjGrad) : ℕ → St → Bool
  | 0, _ => true
  | n + 1, s =>
    match step env o s with
    | .next s1 => allContinueB env o n { s1 with NumIter := s1.NumIter + 1 }
    | _ => false

/-! ### Concrete fixtures used to exercise the model -/

/-- Objective `f(v) = v₀` for the concrete runs below. -/
def ffcn0 : Vec → ℚ := fun v => v.getD 0 0

/-- Oracles whose gradient is identically zero. -/
def envZ : Env where
  ffcn := ffcn0
  jfcn := fun _ => [0]
  wolfe := fun x _ _ _ => (1, 0, x, 0, 0)
  brent := fun x _ => (1, 0, x, 0, 0)
  derivCen5 := fun _ _ f => (f 0, 1)
  norm := fun _ => 0

/-- Oracles whose line search reports no decrease at all (`fmin = fx`),
so the function-value convergence exit fires. -/
def envF : Env where
  ffcn := ffcn0
  jfcn := fun _ => [1]
  wolfe := fun x _ _ _ => (1, x.getD 0 0, x, 2, 3)
  brent := fun x _ => (1, x.getD 0 0, x, 2, 3)
  derivCen5 := fun _ _ f => (f 0, 1)
  norm := fun _ => 0

/-- Oracles whose line search decreases the value by 10 every time, with
a constant nonzero gradient: no exit condition ever fires. -/
def envC : Env where
  ffcn := ffcn0
  jfcn := fun _ => [1]
  wolfe := fun x _ _ _ => (1, x.getD 0 0 - 10, x, 0, 0)
  brent := fun x _ => (1, x.getD 0 0 - 10, x, 0, 0)
  derivCen5 := fun _ _ f => (f 0, 1)
  norm := fun _ => 0

/-- Like `envC` but the finite-difference oracle returns 1000, far from
the supplied gradient component 1. -/
def envJ : Env where
  ffcn := ffcn0
  jfcn := fun _ => [1]
  wolfe := fun x _ _ _ => (1, x.getD 0 0 - 10, x, 0, 0)
  brent := fun x _ => (1, x.getD 0 0 - 10, x, 0, 0)
  derivCen5 := fun _ _ _ => (1000, 0)
  norm := fun _ => 0

/-- Default optimizer with an iteration budget of one. -/
def oC : ConjGrad := { NewConjGrad 1 with MaxIt := 1 }

/-- Default optimizer with a large gradient tolerance. -/
def oG : ConjGrad := { NewConjGrad 1 with Gtol := 10 }

/-- Default optimizer with Jacobian checking enabled. -/
def oJ : ConjGrad := { NewConjGrad 1 with CheckJfcn := true }

/-- Default optimizer with a non-positive iteration budget. -/
def oN : ConjGrad := { NewConjGrad 1 with MaxIt := -2 }

/-- The state produced by the continuing step from `envC` (the step
reaches the direction update, so this is its `.next` payload). -/
def s1C : St := (step envC (NewConjGrad 1) (initSt envC [3])).st

/-- The state at the gradient-convergence test (exit point 3): after the
line minimization, the gradient re-evaluation, and folding in the
Jacobian-check probe count `nfe`. -/
def stAtGtol (env : Env) (o : ConjGrad) (s : St) (nfe : ℕ) : St :=
  { afterGrad env (afterLS env o s) with
    NumFeval := (afterGrad env (afterLS env o s)).NumFeval + (nfe : ℤ) }

/-- The state at the gradient-convergence test in iteration 0 of the
`envC`/`oG` run. -/
def s3G : St := stAtGtol envC oG (initSt envC [3]) 0

/-- The state at the Jacobian check in iteration 0 of the `envJ`/`oJ`
run. -/
def s2J : St := afterGrad envJ (afterLS envJ oJ (initSt envJ [3]))

/-! ### Basic lemmas about the embedding -/

theorem VecDot_nil_left (b : Vec) : VecDot [] b = 0 := by
  simp [VecDot]

theorem VecDot_nil_right (a : Vec) : VecDot a [] = 0 := by
  cases a <;> simp [VecDot]

theorem VecDot_cons (x y : ℚ) (xs ys : Vec) :
    VecDot (x :: xs) (y :: ys) = x * y + VecDot xs ys := by
  simp [VecDot]

theorem vecDot_neg_neg (a b : Vec) : VecDot (vecNeg a) (vecNeg b) = VecDot a b := by
  induction a generalizing b with
  | nil => simp [vecNeg, VecDot_nil_left]
  | cons x xs ih =>
    cases b with
    | nil => simp [vecNeg, VecDot_nil_right]
    | cons y ys => simp [vecNeg] at ih ⊢; rw [VecDot_cons, VecDot_cons, ih]; ring_nf

theorem vecDot_add_neg (u g : Vec) :
    VecDot (vecAdd u (vecNeg g)) u = VecDot (vecSub g u) (vecNeg u) := by
  induction u generalizing g with
  | nil => simp [vecAdd, vecSub, vecNeg, VecDot_nil_left]
  | cons x xs ih =>
    cases g with
    | nil => simp [vecAdd, vecSub, vecNeg, VecDot_nil_left, VecDot_nil_right]
    | cons y ys =>
      simp only [vecAdd, vecSub, vecNeg, List.zipWith_cons_cons, List.map_cons] at ih ⊢
      rw [VecDot_cons, VecDot_cons, ih]; ring_nf

/-- Fields of the state after the line minimization: `fx`, `g`, `h` and
`NumIter` pass through; the counters grow by the reported evaluation
counts. -/
theorem afterLS_fields (env : Env) (o : ConjGrad) (s : St) :
    (afterLS env o s).fx = s.fx ∧ (afterLS env o s).g = s.g ∧
    (afterLS env o s).h = s.h ∧ (afterLS env o s).NumIter = s.NumIter ∧
    s.NumFeval ≤ (afterLS env o s).NumFeval ∧
    s.NumJeval ≤ (afterLS env o s).NumJeval := by
  unfold afterLS
  rcases lineSearchCall env o s.x s.u true s.fold with ⟨a, fm, xN, nfe, nje⟩
  refine ⟨rfl, rfl, rfl, rfl, ?_, ?_⟩ <;> simp

/-- `afterGrad` keeps `x`, `g`, `h`, `NumFeval`, `NumIter`. -/
theorem afterGrad_fields (env : Env) (s : St) :
    (afterGrad env s).x = s.x ∧ (afterGrad env s).g = s.g ∧
    (afterGrad env s).h = s.h ∧ (afterGrad env s).NumFeval = s.NumFeval ∧
    (afterGrad env s).NumIter = s.NumIter ∧
    (afterGrad env s).NumJeval = s.NumJeval + 1 ∧
    (afterGrad env s).u = env.jfcn s.x ∧ (afterGrad env s).fx = s.fmin := by
  unfold afterGrad
  exact ⟨rfl, rfl, rfl, rfl, rfl, rfl, rfl, rfl⟩

/-- The loop body never changes `NumIter`; only the loop header does. -/
theorem step_st_numIter (env : Env) (o : ConjGrad) (s : St) :
    (step env o s).st.NumIter = s.NumIter := by
  have hLS := (afterLS_fields env o s).2.2.2.1
  unfold step stepLS stepJac stepAfterJac
  split
  · rfl
  · split
    · simpa [StepRes.st] using hLS
    · split
      · simp [StepRes.st, afterGrad, hLS]
      · split
        · simp [StepRes.st, afterGrad, hLS]
        · simp [StepRes.st, updateDirs, afterGrad, hLS]

/-- Both evaluation counters are monotone across the loop body. -/
theorem step_counters_mono (env : Env) (o : ConjGrad) (s : St) :
    s.NumFeval ≤ (step env o s).st.NumFeval ∧
    s.NumJeval ≤ (step env o s).st.NumJeval := by
  have hf := (afterLS_fields env o s).2.2.2.2.1
  have hj := (afterLS_fields env o s).2.2.2.2.2
  unfold step stepLS stepJac stepAfterJac
  split
  · exact ⟨le_refl _, le_refl _⟩
  · split
    · exact ⟨hf, hj⟩
    · split
      · constructor <;> simp [StepRes.st, afterGrad] <;> omega
      · split
        · constructor <;> simp [StepRes.st, afterGrad] <;> omega
        · constructor <;> simp [StepRes.st, updateDirs, afterGrad] <;> omega

/-- The part of the body after the function-value test never produces the
`exitFtol` outcome. -/
theorem stepJac_ne_exitFtol (env : Env) (o : ConjGrad) (d : ℚ) (s2 t : St) :
    stepJac env o d s2 ≠ .exitFtol t := by
  unfold stepJac stepAfterJac
  split
  · simp
  · split <;> simp

/-- One unfolding of the loop at positive fuel. -/
theorem loop_succ (env : Env) (o : ConjGrad) (n : ℕ) (s : St) :
    loop env o (n + 1) s =
      (match step env o s with
       | .exitGrad0 s1 => .ok s1.fmin s1
       | .exitFtol s1 => .ok s1.fmin s1
       | .exitGtol s1 => .ok s1.fmin s1
       | .panicJac d s1 => .panicJac d s1
       | .next s1 => loop env o n { s1 with NumIter := s1.NumIter + 1 }) := rfl

/-- The running-maximum loop computing `test` is the `max`-fold of the
per-coordinate scaled gradient terms. -/
theorem gradTest_eq_foldl_max (size : ℕ) (x u : Vec) (fx : ℚ) :
    gradTest size x u fx =
      ((List.range size).map
        (fun j => |u.getD j 0| * max |x.getD j 0| 1 / max fx 1)).foldl max 0 := by
  unfold gradTest
  rw [List.foldl_map]
  congr 1
  funext t j
  dsimp only
  rcases le_or_lt (|u.getD j 0| * max |x.getD j 0| 1 / max fx 1) t with h | h
  · rw [if_neg (not_lt.mpr h), max_eq_left h]
  · rw [if_pos h, max_eq_right h.le]

/-! ### Claim theorems -/

/-- Claim C5: at the top of every iteration, if `|dot(g, g)|` is below
`tiny` the iteration returns immediately and successfully with the state
untouched; consequently whenever the loop body reaches the direction
update (where `γ = nume/deno` is computed with `deno` the very
`dot(g, g)` from the top of the iteration), `|deno| ≥ tiny` holds, so the
division is never taken with a (near-)zero denominator. -/
theorem degenerate_gradient_guard (env : Env) (o : ConjGrad) :
    (∀ s : St, |VecDot s.g s.g| < o.tiny →
      step env o s = .exitGrad0 s ∧
      ∀ n : ℕ, loop env o (n + 1) s = .ok s.fmin s) ∧
    (∀ s s1 : St, step env o s = .next s1 → o.tiny ≤ |VecDot s.g s.g|) := by
  constructor
  · intro s hs
    have hstep : step env o s = .exitGrad0 s := by
      unfold step; rw [if_pos hs]
    exact ⟨hstep, fun n => by rw [loop_succ, hstep]⟩
  · intro s s1 hstep
    by_cases hs : |VecDot s.g s.g| < o.tiny
    · rw [show step env o s = .exitGrad0 s from by unfold step; rw [if_pos hs]] at hstep
      cases hstep
    · exact le_of_not_lt hs

unseal Rat.add Rat.mul Rat.inv Rat.sub in
theorem degenerate_gradient_guard_witness :
    step envZ (NewConjGrad 1) (initSt envZ [3]) = .exitGrad0 (initSt envZ [3]) ∧
    loop envZ (NewConjGrad 1) 1 (initSt envZ [3]) =
      .ok (initSt envZ [3]).fmin (initSt envZ [3]) := by
  have h := (degenerate_gradient_guard envZ (NewConjGrad 1)).1
    (initSt envZ [3]) (by decide)
  exact ⟨h.1, h.2 0⟩

/-- Claim C1: whenever an iteration reaches the direction update with the
stored conjugate vector `g` equal to the negated gradient `gOld` of the
previous iterate (which the initialization establishes, see the last
conjunct, and the update re-establishes, see the first), the scaling
factor used is `γ = (gNew⋅gNew)/(gOld⋅gOld)` under Fletcher-Reeves and
`γ = max((gOld − gNew)⋅(−gNew), 0)/(gOld⋅gOld)` under Polak-Ribiere,
where `gNew` is the gradient at the current iterate; the new search
direction is `u = -gNew + γ·h`, with `g` set to `-gNew` and `h` set to
`u`. -/
theorem gamma_formula_and_direction_update (env : Env) (o : ConjGrad)
    (s s1 : St) (gOld : Vec) (hg : s.g = vecNeg gOld)
    (hstep : step env o s = .next s1) :
    s1.g = vecNeg (env.jfcn (afterLS env o s).x) ∧
    s1.u = List.zipWith
      (fun gj hj =>
        gj + gammaSpec o.UseFRmethod gOld (env.jfcn (afterLS env o s).x) * hj)
      (vecNeg (env.jfcn (afterLS env o s).x)) s.h ∧
    s1.h = s1.u ∧
    gammaNume o.UseFRmethod (env.jfcn (afterLS env o s).x) s.g / VecDot s.g s.g =
      gammaSpec o.UseFRmethod gOld (env.jfcn (afterLS env o s).x) ∧
    ∀ y : Vec, (initSt env y).g = vecNeg (env.jfcn y) := by
  have hgg : (afterLS env o s).g = s.g := (afterLS_fields env o s).2.1
  have hh : (afterLS env o s).h = s.h := (afterLS_fields env o s).2.2.1
  have hgam : gammaNume o.UseFRmethod (env.jfcn (afterLS env o s).x) s.g /
      VecDot s.g s.g =
      gammaSpec o.UseFRmethod gOld (env.jfcn (afterLS env o s).x) := by
    rw [hg]
    unfold gammaNume gammaSpec
    rw [vecDot_neg_neg, vecDot_add_neg, max_comm]
  by_cases hb1 : |VecDot s.g s.g| < o.tiny
  · exfalso
    rw [show step env o s = .exitGrad0 s from by unfold step; rw [if_pos hb1]]
      at hstep
    cases hstep
  have hstep0 : step env o s = stepLS env o (VecDot s.g s.g) (afterLS env o s) := by
    unfold step; rw [if_neg hb1]
  by_cases hb2 : 2 * |(afterLS env o s).fmin - (afterLS env o s).fx| ≤
      o.Ftol * (|(afterLS env o s).fmin| + |(afterLS env o s).fx| + o.tiny)
  · exfalso
    rw [hstep0, show stepLS env o (VecDot s.g s.g) (afterLS env o s) =
        .exitFtol (afterLS env o s) from by unfold stepLS; rw [if_pos hb2]]
      at hstep
    cases hstep
  have hstep1 : step env o s =
      stepJac env o (VecDot s.g s.g) (afterGrad env (afterLS env o s)) :=
    hstep0.trans (by unfold stepLS; rw [if_neg hb2])
  cases hjc : (if o.CheckJfcn then
      checkJacobian env o.size (afterGrad env (afterLS env o s)).x
        (afterGrad env (afterLS env o s)).u
    else JacCheck.ok 0) with
  | panicJac d =>
    exfalso
    have hJ := hstep1.symm.trans hstep
    unfold stepJac at hJ
    rw [hjc] at hJ
    simp at hJ
  | ok nfe =>
    have hstep2 : step env o s =
        stepAfterJac o (VecDot s.g s.g) (stAtGtol env o s nfe) := by
      rw [hstep1]; unfold stepJac; rw [hjc]; rfl
    have hJ := hstep2.symm.trans hstep
    unfold stepAfterJac at hJ
    by_cases hb3 : gradTest o.size (stAtGtol env o s nfe).x
        (stAtGtol env o s nfe).u (stAtGtol env o s nfe).fx < o.Gtol
    · exfalso
      rw [if_pos hb3] at hJ
      cases hJ
    · rw [if_neg hb3] at hJ
      have hs1 := (StepRes.next.injEq _ _).mp hJ
      subst hs1
      refine ⟨rfl, ?_, rfl, hgam, fun y => rfl⟩
      show List.zipWith
        (fun gj hj => gj +
          (gammaNume o.UseFRmethod (env.jfcn (afterLS env o s).x)
            (afterLS env o s).g / VecDot s.g s.g) * hj)
        (vecNeg (env.jfcn (afterLS env o s).x)) (afterLS env o s).h = _
      simp only [hgg, hh, hgam]

unseal Rat.add Rat.mul Rat.inv Rat.sub in
theorem gamma_formula_and_direction_update_witness :
    step envC (NewConjGrad 1) (initSt envC [3]) = .next s1C ∧
    s1C.g = vecNeg (envC.jfcn (afterLS envC (NewConjGrad 1) (initSt envC [3])).x) ∧
    s1C.h = s1C.u ∧
    gammaNume (NewConjGrad 1).UseFRmethod
        (envC.jfcn (afterLS envC (NewConjGrad 1) (initSt envC [3])).x)
        (initSt envC [3]).g /
      VecDot (initSt envC [3]).g (initSt envC [3]).g =
      gammaSpec (NewConjGrad 1).UseFRmethod [1]
        (envC.jfcn (afterLS envC (NewConjGrad 1) (initSt envC [3])).x) := by
  have hstep : step envC (NewConjGrad 1) (initSt envC [3]) = .next s1C := by decide
  have h := gamma_formula_and_direction_update envC (NewConjGrad 1)
    (initSt envC [3]) s1C [1] (by decide) hstep
  exact ⟨hstep, h.1, h.2.2.1, h.2.2.2.1⟩

/-- Claim C2: in every iteration that passes the degenerate-gradient
test, immediately after the line minimization returns `fmin`, `Min`
returns `fmin` normally if and only if
`2|fmin − fx| ≤ Ftol(|fmin| + |fx| + tiny)`, where `fx` is the function
value from before the line minimization (and `tiny = 1e-18` in a
constructed optimizer); when the test fires, the gradient is not
re-evaluated (the outcome does not depend on `jfcn`) and no later step of
the iteration runs. -/
theorem ftol_exit_iff (env : Env) (o : ConjGrad) (s : St)
    (h1 : ¬ |VecDot s.g s.g| < o.tiny) :
    (step env o s = .exitFtol (afterLS env o s) ↔
      2 * |(afterLS env o s).fmin - s.fx| ≤
        o.Ftol * (|(afterLS env o s).fmin| + |s.fx| + o.tiny)) ∧
    (2 * |(afterLS env o s).fmin - s.fx| ≤
        o.Ftol * (|(afterLS env o s).fmin| + |s.fx| + o.tiny) →
      (∀ n : ℕ, loop env o (n + 1) s =
        .ok (afterLS env o s).fmin (afterLS env o s)) ∧
      ∀ j : Vec → Vec,
        step { env with jfcn := j } o s = .exitFtol (afterLS env o s)) := by
  have hfx : (afterLS env o s).fx = s.fx := (afterLS_fields env o s).1
  have hstep0 : step env o s = stepLS env o (VecDot s.g s.g) (afterLS env o s) := by
    unfold step; rw [if_neg h1]
  by_cases hc : 2 * |(afterLS env o s).fmin - s.fx| ≤
      o.Ftol * (|(afterLS env o s).fmin| + |s.fx| + o.tiny)
  · have hc' : 2 * |(afterLS env o s).fmin - (afterLS env o s).fx| ≤
        o.Ftol * (|(afterLS env o s).fmin| + |(afterLS env o s).fx| + o.tiny) := by
      rw [hfx]; exact hc
    have hsf : stepLS env o (VecDot s.g s.g) (afterLS env o s) =
        .exitFtol (afterLS env o s) := by
      unfold stepLS; rw [if_pos hc']
    refine ⟨⟨fun _ => hc, fun _ => hstep0.trans hsf⟩,
      fun _ => ⟨fun n => ?_, fun j => ?_⟩⟩
    · rw [loop_succ, hstep0.trans hsf]
    · have hLSj : afterLS { env with jfcn := j } o s = afterLS env o s := rfl
      unfold step
      rw [if_neg h1, hLSj]
      unfold stepLS
      rw [if_pos hc']
  · have hc' : ¬ 2 * |(afterLS env o s).fmin - (afterLS env o s).fx| ≤
        o.Ftol * (|(afterLS env o s).fmin| + |(afterLS env o s).fx| + o.tiny) := by
      rw [hfx]; exact hc
    have hsf : stepLS env o (VecDot s.g s.g) (afterLS env o s) =
        stepJac env o (VecDot s.g s.g) (afterGrad env (afterLS env o s)) := by
      unfold stepLS; rw [if_neg hc']
    refine ⟨⟨fun hEq => ?_, fun hcc => absurd hcc hc⟩, fun hcc => absurd hcc hc⟩
    exact absurd (hsf.symm.trans (hstep0.symm.trans hEq))
      (stepJac_ne_exitFtol env o _ _ _)

unseal Rat.add Rat.mul Rat.inv Rat.sub in
theorem ftol_exit_iff_witness :
    step envF (NewConjGrad 1) (initSt envF [3]) =
      .exitFtol (afterLS envF (NewConjGrad 1) (initSt envF [3])) ∧
    loop envF (NewConjGrad 1) 1 (initSt envF [3]) =
      .ok (afterLS envF (NewConjGrad 1) (initSt envF [3])).fmin
        (afterLS envF (NewConjGrad 1) (initSt envF [3])) := by
  have h := ftol_exit_iff envF (NewConjGrad 1) (initSt envF [3]) (by decide)
  have hc : 2 * |(afterLS envF (NewConjGrad 1) (initSt envF [3])).fmin -
      (initSt envF [3]).fx| ≤
      (NewConjGrad 1).Ftol * (|(afterLS envF (NewConjGrad 1) (initSt envF [3])).fmin| +
        |(initSt envF [3]).fx| + (NewConjGrad 1).tiny) := by decide
  exact ⟨h.1.mpr hc, (h.2 hc).1 0⟩

/-- Claim C3: in every iteration that re-evaluates the gradient, the
statistic is `test = max_j |grad_j| * max(|x_j|,1) / max(fx,1)` — a
running maximum over all coordinates, with the denominator `max(fx, 1)`
using the just-updated `fx` itself, not `|fx|` — and `Min` returns
normally at that point if and only if `test < Gtol`. -/
theorem gtol_exit_iff (env : Env) (o : ConjGrad) (s : St) (nfe : ℕ)
    (h1 : ¬ |VecDot s.g s.g| < o.tiny)
    (h2 : ¬ 2 * |(afterLS env o s).fmin - (afterLS env o s).fx| ≤
      o.Ftol * (|(afterLS env o s).fmin| + |(afterLS env o s).fx| + o.tiny))
    (hjac : (if o.CheckJfcn then
        checkJacobian env o.size (afterGrad env (afterLS env o s)).x
          (afterGrad env (afterLS env o s)).u
      else JacCheck.ok 0) = .ok nfe) :
    (step env o s = .exitGtol (stAtGtol env o s nfe) ↔
      gradTest o.size (afterGrad env (afterLS env o s)).x
        (afterGrad env (afterLS env o s)).u
        (afterGrad env (afterLS env o s)).fx < o.Gtol) ∧
    (∀ (size : ℕ) (x u : Vec) (fx : ℚ),
      gradTest size x u fx =
        ((List.range size).map
          (fun j => |u.getD j 0| * max |x.getD j 0| 1 / max fx 1)).foldl max 0) ∧
    (gradTest o.size (afterGrad env (afterLS env o s)).x
        (afterGrad env (afterLS env o s)).u
        (afterGrad env (afterLS env o s)).fx < o.Gtol →
      ∀ n : ℕ, loop env o (n + 1) s =
        .ok (stAtGtol env o s nfe).fmin (stAtGtol env o s nfe)) := by
  have hstep0 : step env o s =
      stepAfterJac o (VecDot s.g s.g) (stAtGtol env o s nfe) := by
    unfold step stepLS
    rw [if_neg h1, if_neg h2]
    unfold stepJac
    rw [hjac]
    rfl
  by_cases h3 : gradTest o.size (afterGrad env (afterLS env o s)).x
      (afterGrad env (afterLS env o s)).u
      (afterGrad env (afterLS env o s)).fx < o.Gtol
  · have h3' : gradTest o.size (stAtGtol env o s nfe).x (stAtGtol env o s nfe).u
        (stAtGtol env o s nfe).fx < o.Gtol := h3
    have hsa : stepAfterJac o (VecDot s.g s.g) (stAtGtol env o s nfe) =
        .exitGtol (stAtGtol env o s nfe) := by
      unfold stepAfterJac; rw [if_pos h3']
    exact ⟨⟨fun _ => h3, fun _ => hstep0.trans hsa⟩, gradTest_eq_foldl_max,
      fun _ n => by rw [loop_succ, hstep0.trans hsa]⟩
  · have h3' : ¬ gradTest o.size (stAtGtol env o s nfe).x (stAtGtol env o s nfe).u
        (stAtGtol env o s nfe).fx < o.Gtol := h3
    have hsa : stepAfterJac o (VecDot s.g s.g) (stAtGtol env o s nfe) =
        .next (updateDirs o (VecDot s.g s.g) (stAtGtol env o s nfe)) := by
      unfold stepAfterJac; rw [if_neg h3']
    refine ⟨⟨fun hEq => ?_, fun hcc => absurd hcc h3⟩, gradTest_eq_foldl_max,
      fun hcc => absurd hcc h3⟩
    have := (hstep0.trans hsa).symm.trans hEq
    cases this

unseal Rat.add Rat.mul Rat.inv Rat.sub in
theorem gtol_exit_iff_witness :
    step envC oG (initSt envC [3]) = .exitGtol s3G ∧
    loop envC oG 1 (initSt envC [3]) = .ok s3G.fmin s3G := by
  have h := gtol_exit_iff envC oG (initSt envC [3]) 0 (by decide) (by decide) rfl
  have h3 : gradTest oG.size (afterGrad envC (afterLS envC oG (initSt envC [3]))).x
      (afterGrad envC (afterLS envC oG (initSt envC [3]))).u
      (afterGrad envC (afterLS envC oG (initSt envC [3]))).fx < oG.Gtol := by decide
  exact ⟨h.1.mpr h3, h.2.2 h3 0⟩

/-- Claim C9: for every input vector whose gradient has squared norm
below `1e-18`, `Min` returns the initial objective value with the
caller's vector unmodified, `NumIter = 0`, `NumFeval = NumJeval = 1`,
and its outcome is independent of the line-search collaborators (they
are never invoked). -/
theorem zero_gradient_immediate_return (env : Env) (o : ConjGrad) (x : Vec)
    (hmax : 0 < o.MaxIt) (htiny : o.tiny = 1 / 10 ^ 18)
    (hg : |VecDot (env.jfcn x) (env.jfcn x)| < 1 / 10 ^ 18) :
    Min env o x = .ok (env.ffcn x) (initSt env x) ∧
    (initSt env x).x = x ∧ (initSt env x).fmin = env.ffcn x ∧
    (initSt env x).NumIter = 0 ∧
    (initSt env x).NumFeval = 1 ∧ (initSt env x).NumJeval = 1 ∧
    ∀ w b, Min { env with wolfe := w, brent := b } o x = Min env o x := by
  have hg' : |VecDot (initSt env x).g (initSt env x).g| < o.tiny := by
    show |VecDot (vecNeg (env.jfcn x)) (vecNeg (env.jfcn x))| < o.tiny
    rw [vecDot_neg_neg, htiny]; exact hg
  obtain ⟨n, hn⟩ : ∃ n, o.MaxIt.toNat = n + 1 := ⟨o.MaxIt.toNat - 1, by omega⟩
  have hstep : step env o (initSt env x) = .exitGrad0 (initSt env x) := by
    unfold step; rw [if_pos hg']
  have hMin : Min env o x = .ok (env.ffcn x) (initSt env x) := by
    unfold Min; rw [hn, loop_succ, hstep]; rfl
  refine ⟨hMin, rfl, rfl, rfl, rfl, rfl, fun w b => ?_⟩
  have hinit : initSt { env with wolfe := w, brent := b } x = initSt env x := rfl
  have hstep2 : step { env with wolfe := w, brent := b } o (initSt env x) =
      .exitGrad0 (initSt env x) := by
    unfold step; rw [if_pos hg']
  unfold Min
  rw [hn, hinit, loop_succ, loop_succ, hstep, hstep2]

unseal Rat.add Rat.mul Rat.inv Rat.sub in
theorem zero_gradient_immediate_return_witness :
    Min envZ (NewConjGrad 1) [3] = .ok (envZ.ffcn [3]) (initSt envZ [3]) ∧
    (initSt envZ [3]).x = [3] ∧ (initSt envZ [3]).NumIter = 0 ∧
    (initSt envZ [3]).NumFeval = 1 ∧ (initSt envZ [3]).NumJeval = 1 := by
  have h := zero_gradient_immediate_return envZ (NewConjGrad 1) [3]
    (by decide) (by decide) (by decide)
  exact ⟨h.1, h.2.1, h.2.2.2.1, h.2.2.2.2.1, h.2.2.2.2.2.1⟩

/-- Claim C10: when `MaxIt ≤ 0`, `Min` performs the initial objective and
gradient evaluations (the carried state is the initialization state, with
both counters at 1) but never enters the loop and aborts with the
non-convergence panic, never returning normally — for every input,
including those where the gradient is exactly zero. -/
theorem nonpositive_maxit_panics (env : Env) (o : ConjGrad) (x : Vec)
    (hmax : o.MaxIt ≤ 0) :
    Min env o x = .panicConverge (initSt env x) ∧
    (initSt env x).NumFeval = 1 ∧ (initSt env x).NumJeval = 1 ∧
    (initSt env x).NumIter = 0 ∧ (initSt env x).fx = env.ffcn x ∧
    ∀ fm t, Min env o x ≠ .ok fm t := by
  have hn : o.MaxIt.toNat = 0 := by omega
  have hMin : Min env o x = .panicConverge (initSt env x) := by
    unfold Min; rw [hn]; rfl
  refine ⟨hMin, rfl, rfl, rfl, rfl, fun fm t => ?_⟩
  rw [hMin]; simp

unseal Rat.add Rat.mul Rat.inv Rat.sub in
theorem nonpositive_maxit_panics_witness :
    Min envZ oN [3] = .panicConverge (initSt envZ [3]) ∧
    (initSt envZ [3]).NumFeval = 1 ∧ (initSt envZ [3]).NumJeval = 1 := by
  have h := nonpositive_maxit_panics envZ oN [3] (by decide)
  exact ⟨h.1, h.2.1, h.2.2.1⟩

/-- One unfolding of `allContinueB` at positive fuel. -/
theorem allContinueB_succ (env : Env) (o : ConjGrad) (n : ℕ) (s : St) :
    allContinueB env o (n + 1) s =
      (match step env o s with
       | .next s1 => allContinueB env o n { s1 with NumIter := s1.NumIter + 1 }
       | _ => false) := rfl

/-- Exhausting the fuel with only continuing steps ends in the
non-convergence panic, with `NumIter` advanced by the fuel. -/
theorem loop_panic_of_allContinue (env : Env) (o : ConjGrad) :
    ∀ (n : ℕ) (s : St), allContinueB env o n s = true →
      ∃ s2, loop env o n s = .panicConverge s2 ∧
        s2.NumIter = s.NumIter + (n : ℤ) := by
  intro n
  induction n with
  | zero => intro s _; exact ⟨s, rfl, by simp⟩
  | succ n ih =>
    intro s h
    rw [allContinueB_succ] at h
    cases hst : step env o s with
    | exitGrad0 s1 => rw [hst] at h; simp at h
    | exitFtol s1 => rw [hst] at h; simp at h
    | exitGtol s1 => rw [hst] at h; simp at h
    | panicJac d s1 => rw [hst] at h; simp at h
    | next s1 =>
      rw [hst] at h
      obtain ⟨s2, hl, hni⟩ := ih { s1 with NumIter := s1.NumIter + 1 } h
      have hni1 : s1.NumIter = s.NumIter := by
        have h0 := step_st_numIter env o s
        rw [hst] at h0
        exact h0
      refine ⟨s2, ?_, ?_⟩
      · rw [loop_succ, hst]; exact hl
      · rw [hni]
        show s1.NumIter + 1 + (n : ℤ) = s.NumIter + ((n : ℕ) + 1 : ℕ)
        rw [hni1]
        push_cast
        ring

/-- Claim C4: if no exit condition fires during the whole iteration
budget (`allContinueB`), `Min` aborts with the `fail to converge` panic
carrying the iteration count, and there is no normal return. -/
theorem nonconvergence_panics (env : Env) (o : ConjGrad) (x : Vec)
    (h : allContinueB env o o.MaxIt.toNat (initSt env x) = true) :
    ∃ s2, Min env o x = .panicConverge s2 ∧
      s2.NumIter = (o.MaxIt.toNat : ℤ) ∧ ∀ fm t, Min env o x ≠ .ok fm t := by
  obtain ⟨s2, hl, hni⟩ :=
    loop_panic_of_allContinue env o o.MaxIt.toNat (initSt env x) h
  have hMin : Min env o x = .panicConverge s2 := hl
  refine ⟨s2, hMin, ?_, ?_⟩
  · rw [hni]
    show (0 : ℤ) + (o.MaxIt.toNat : ℤ) = (o.MaxIt.toNat : ℤ)
    ring
  · intro fm t
    rw [hMin]
    simp

unseal Rat.add Rat.mul Rat.inv Rat.sub in
theorem nonconvergence_panics_witness :
    allContinueB envC oC oC.MaxIt.toNat (initSt envC [3]) = true ∧
    ∃ s2, Min envC oC [3] = .panicConverge s2 ∧
      s2.NumIter = (oC.MaxIt.toNat : ℤ) := by
  have hac : allContinueB envC oC oC.MaxIt.toNat (initSt envC [3]) = true := by
    decide
  obtain ⟨s2, h1, h2, _⟩ := nonconvergence_panics envC oC [3] hac
  exact ⟨hac, s2, h1, h2⟩

/-- The coordinate scan of `checkJacobian` panics exactly when some
scanned coordinate deviates from its finite-difference estimate by more
than `1e-12`. -/
theorem cjGo_panicJac_iff (env : Env) (x u : Vec) :
    ∀ (ks : List ℕ) (acc : ℕ),
      (∃ d, cjGo env x u acc ks = .panicJac d) ↔
      ∃ k ∈ ks, 1 / 10 ^ 12 < |u.getD k 0 - (checkJacobianEst env x k).1| := by
  intro ks
  induction ks with
  | nil => intro acc; simp [cjGo]
  | cons k ks ih =>
    intro acc
    unfold cjGo
    by_cases h : |u.getD k 0 - (checkJacobianEst env x k).1| > 1 / 10 ^ 12
    · rw [if_pos h]
      constructor
      · intro _; exact ⟨k, List.mem_cons_self k ks, h⟩
      · intro _; exact ⟨_, rfl⟩
    · rw [if_neg h, ih]
      constructor
      · rintro ⟨j, hj, hd⟩
        exact ⟨j, List.mem_cons_of_mem k hj, hd⟩
      · rintro ⟨j, hj, hd⟩
        rcases List.mem_cons.mp hj with hk | hk
        · exact absurd (hk ▸ hd) h
        · exact ⟨j, hk, hd⟩

/-- Claim C6: with `CheckJfcn` enabled, after the per-iteration gradient
re-evaluation `Min` verifies every coordinate `k < size` of the supplied
gradient against the 5-point central-difference estimate of the objective
over a scratch copy of `x` perturbed at index `k`; it panics (reporting
the deviation) exactly when some coordinate deviates by more than
`1e-12`, and then the iteration aborts instead of continuing. -/
theorem checkJacobian_catches_bad_gradient (env : Env) (o : ConjGrad)
    (s : St) (d : ℚ)
    (h1 : ¬ |VecDot s.g s.g| < o.tiny)
    (h2 : ¬ 2 * |(afterLS env o s).fmin - (afterLS env o s).fx| ≤
      o.Ftol * (|(afterLS env o s).fmin| + |(afterLS env o s).fx| + o.tiny))
    (hck : o.CheckJfcn = true) :
    ((∃ dv, checkJacobian env o.size (afterGrad env (afterLS env o s)).x
        (afterGrad env (afterLS env o s)).u = .panicJac dv) ↔
      ∃ k < o.size, 1 / 10 ^ 12 <
        |(afterGrad env (afterLS env o s)).u.getD k 0 -
          (checkJacobianEst env (afterGrad env (afterLS env o s)).x k).1|) ∧
    (checkJacobian env o.size (afterGrad env (afterLS env o s)).x
        (afterGrad env (afterLS env o s)).u = .panicJac d →
      step env o s = .panicJac d (afterGrad env (afterLS env o s))) := by
  constructor
  · have hiff := cjGo_panicJac_iff env (afterGrad env (afterLS env o s)).x
      (afterGrad env (afterLS env o s)).u (List.range o.size) 0
    unfold checkJacobian
    rw [hiff]
    constructor
    · rintro ⟨k, hk, hd⟩; exact ⟨k, List.mem_range.mp hk, hd⟩
    · rintro ⟨k, hk, hd⟩; exact ⟨k, List.mem_range.mpr hk, hd⟩
  · intro hpj
    unfold step stepLS
    rw [if_neg h1, if_neg h2]
    unfold stepJac
    rw [hck]
    rw [if_pos rfl]
    rw [hpj]

unseal Rat.add Rat.mul Rat.inv Rat.sub in
theorem checkJacobian_catches_bad_gradient_witness :
    step envJ oJ (initSt envJ [3]) = .panicJac 999 s2J ∧
    ∃ k < oJ.size, 1 / 10 ^ 12 <
      |s2J.u.getD k 0 - (checkJacobianEst envJ s2J.x k).1| := by
  have h := checkJacobian_catches_bad_gradient envJ oJ (initSt envJ [3]) 999
    (by decide) (by decide) rfl
  exact ⟨h.2 (by decide), h.1.mp ⟨999, by decide⟩⟩

/-- Claim C7: when the gradient tolerance exceeds the iteration-0 scaled
gradient statistic (in particular for any sufficiently large `Gtol`), a
constructed optimizer (positive iteration budget, no Jacobian checking)
returns normally from iteration 0 — no second conjugate-gradient
iteration is entered. -/
theorem large_gtol_returns_at_iter0 (env : Env) (o : ConjGrad) (x : Vec)
    (hck : o.CheckJfcn = false) (hmax : 0 < o.MaxIt)
    (hG : iter0Test env o x < o.Gtol) :
    ∃ fm s, Min env o x = .ok fm s ∧ s.NumIter = 0 := by
  obtain ⟨n, hn⟩ : ∃ n, o.MaxIt.toNat = n + 1 := ⟨o.MaxIt.toNat - 1, by omega⟩
  by_cases hb1 : |VecDot (initSt env x).g (initSt env x).g| < o.tiny
  · have hstep : step env o (initSt env x) = .exitGrad0 (initSt env x) := by
      unfold step; rw [if_pos hb1]
    refine ⟨(initSt env x).fmin, initSt env x, ?_, rfl⟩
    unfold Min; rw [hn, loop_succ, hstep]
  have hstep0 : step env o (initSt env x) =
      stepLS env o (VecDot (initSt env x).g (initSt env x).g)
        (afterLS env o (initSt env x)) := by
    unfold step; rw [if_neg hb1]
  have hniLS : (afterLS env o (initSt env x)).NumIter = 0 :=
    (afterLS_fields env o (initSt env x)).2.2.2.1
  by_cases hb2 : 2 * |(afterLS env o (initSt env x)).fmin -
      (afterLS env o (initSt env x)).fx| ≤
      o.Ftol * (|(afterLS env o (initSt env x)).fmin| +
        |(afterLS env o (initSt env x)).fx| + o.tiny)
  · have hstep : step env o (initSt env x) =
        .exitFtol (afterLS env o (initSt env x)) :=
      hstep0.trans (by unfold stepLS; rw [if_pos hb2])
    refine ⟨(afterLS env o (initSt env x)).fmin, afterLS env o (initSt env x),
      ?_, hniLS⟩
    unfold Min; rw [hn, loop_succ, hstep]
  have hjac : (if o.CheckJfcn then
      checkJacobian env o.size (afterGrad env (afterLS env o (initSt env x))).x
        (afterGrad env (afterLS env o (initSt env x))).u
    else JacCheck.ok 0) = .ok 0 := by
    rw [hck]; rfl
  have hstep2 : step env o (initSt env x) =
      stepAfterJac o (VecDot (initSt env x).g (initSt env x).g)
        (stAtGtol env o (initSt env x) 0) := by
    rw [hstep0]
    unfold stepLS
    rw [if_neg hb2]
    unfold stepJac
    rw [hjac]
    rfl
  have hb3 : gradTest o.size (stAtGtol env o (initSt env x) 0).x
      (stAtGtol env o (initSt env x) 0).u
      (stAtGtol env o (initSt env x) 0).fx < o.Gtol := hG
  have hstep3 : step env o (initSt env x) =
      .exitGtol (stAtGtol env o (initSt env x) 0) :=
    hstep2.trans (by unfold stepAfterJac; rw [if_pos hb3])
  refine ⟨(stAtGtol env o (initSt env x) 0).fmin, stAtGtol env o (initSt env x) 0,
    ?_, ?_⟩
  · unfold Min; rw [hn, loop_succ, hstep3]
  · show (afterLS env o (initSt env x)).NumIter = 0
    exact hniLS

unseal Rat.add Rat.mul Rat.inv Rat.sub in
theorem large_gtol_returns_at_iter0_witness :
    ∃ fm s, Min envC oG [3] = .ok fm s ∧ s.NumIter = 0 :=
  large_gtol_returns_at_iter0 envC oG [3] rfl (by decide) (by decide)

/-- The evaluation counters are monotone along the whole loop. -/
theorem loop_counters_mono (env : Env) (o : ConjGrad) :
    ∀ (n : ℕ) (s : St),
      s.NumFeval ≤ ((loop env o n s).st).NumFeval ∧
      s.NumJeval ≤ ((loop env o n s).st).NumJeval := by
  intro n
  induction n with
  | zero => intro s; exact ⟨le_refl _, le_refl _⟩
  | succ n ih =>
    intro s
    have hm := step_counters_mono env o s
    cases hst : step env o s with
    | exitGrad0 s1 =>
      rw [hst] at hm; rw [loop_succ, hst]; exact hm
    | exitFtol s1 =>
      rw [hst] at hm; rw [loop_succ, hst]; exact hm
    | exitGtol s1 =>
      rw [hst] at hm; rw [loop_succ, hst]; exact hm
    | panicJac d s1 =>
      rw [hst] at hm; rw [loop_succ, hst]; exact hm
    | next s1 =>
      rw [hst] at hm
      rw [loop_succ, hst]
      have hrec := ih { s1 with NumIter := s1.NumIter + 1 }
      exact ⟨le_trans hm.1 hrec.1, le_trans hm.2 hrec.2⟩

/-- Claim C8: `Min` resets both evaluation counters at the start (to 1,
accounting for the initial objective and gradient evaluations),
irrespective of whatever the counter fields held before the call, and
from then on every loop body only adds non-negative quantities, so the
counters only increase until `Min` returns. -/
theorem counters_reset_and_monotone (env : Env) (o : ConjGrad) :
    (∀ x : Vec, (initSt env x).NumFeval = 1 ∧ (initSt env x).NumJeval = 1) ∧
    (∀ s : St, s.NumFeval ≤ ((step env o s).st).NumFeval ∧
      s.NumJeval ≤ ((step env o s).st).NumJeval) ∧
    (∀ (a b c : ℤ) (x : Vec),
      Min env { o with NumFeval := a, NumJeval := b, NumIter := c } x =
        Min env o x) ∧
    (∀ x : Vec, 1 ≤ ((Min env o x).st).NumFeval ∧
      1 ≤ ((Min env o x).st).NumJeval) := by
  refine ⟨fun x => ⟨rfl, rfl⟩, step_counters_mono env o, ?_, ?_⟩
  · intro a b c x
    have h : ∀ (n : ℕ) (s : St),
        loop env { o with NumFeval := a, NumJeval := b, NumIter := c } n s =
          loop env o n s := by
      intro n
      induction n with
      | zero => intro s; rfl
      | succ n ih =>
        intro s
        rw [loop_succ, loop_succ]
        rw [show step env { o with NumFeval := a, NumJeval := b, NumIter := c } s =
          step env o s from rfl]
        cases step env o s with
        | exitGrad0 s1 => rfl
        | exitFtol s1 => rfl
        | exitGtol s1 => rfl
        | panicJac d s1 => rfl
        | next s1 => exact ih _
    exact h _ _
  · intro x
    exact loop_counters_mono env o o.MaxIt.toNat (initSt env x)

theorem counters_reset_and_monotone_witness :
    (initSt envC [3]).NumFeval = 1 ∧ (initSt envC [3]).NumJeval = 1 ∧
    Min envC { oC with NumFeval := 77, NumJeval := -5, NumIter := 9 } [3] =
      Min envC oC [3] := by
  have h := counters_reset_and_monotone envC oC
  exact ⟨(h.1 [3]).1, (h.1 [3]).2, h.2.2.1 77 (-5) 9 [3]⟩

end Opt
